import Mathlib

set_option maxHeartbeats 1000000

/-!
Verification of the Unity-YAML dialect parser/serializer (`src/yaml.rs`).

Rust strings are modelled as lists of characters (`Line`); the `Yaml` enum
(`Value` / `Hash` / `Array`) is modelled with `HashMap<String, Yaml>` embedded
as an insertion-ordered association list whose `insert` replaces the value of
an existing key in place (the determinization of `HashMap`; key sets and
looked-up values agree with any iteration order).  Panics of the reference
code are modelled as `none`.  The parser loop of `parse_block` is embedded as
a recursion over the remaining lines; since every recursive call passes a
strictly shorter list, a fuel argument equal to the number of lines makes the
definition structural (hence computable by `rfl`); fuel exhaustion is a
distinguished outcome (`none` of the outer `Option`) and is proved impossible
when the fuel is at least the number of lines.
-/

namespace RustYaml

/-- A `Line` models a Rust string slice at character granularity. -/
abbrev Line := List Char

/-- Whitespace test used by `str::trim`: the Unicode White_Space property, as
in `char::is_whitespace`: the ASCII whitespace controls and space, NEL, NBSP,
Ogham space mark, the U+2000..U+200A spaces, the line and paragraph
separators, narrow no-break space, medium mathematical space, and ideographic
space. -/
def isWS (c : Char) : Bool :=
  c = ' ' || c = '\t' || c = '\n' || c = '\x0b' || c = '\x0c' || c = '\r' ||
  c = '\u0085' || c = '\u00A0' || c = '\u1680' ||
  c = '\u2000' || c = '\u2001' || c = '\u2002' || c = '\u2003' || c = '\u2004' ||
  c = '\u2005' || c = '\u2006' || c = '\u2007' || c = '\u2008' || c = '\u2009' ||
  c = '\u200A' || c = '\u2028' || c = '\u2029' || c = '\u202F' || c = '\u205F' ||
  c = '\u3000'

/-- `str::trim`: remove leading and trailing whitespace. -/
def trim (l : Line) : Line := ((l.dropWhile isWS).reverse.dropWhile isWS).reverse

/-- `line.chars().take_while(|c| *c == ' ').count()`: number of leading spaces. -/
def leadingSpaces (l : Line) : Nat := (l.takeWhile (fun c => c = ' ')).length

/-- `str::find(':')`: index of the first colon, if any. -/
def findColon : Line → Option Nat
  | [] => none
  | c :: cs => if c = ':' then some 0 else (findColon cs).map (· + 1)

/-- `str::split(',')`: split at every comma (empty pieces preserved). -/
def splitComma : Line → List Line
  | [] => [[]]
  | c :: cs =>
    if c = ',' then [] :: splitComma cs
    else
      match splitComma cs with
      | p :: ps => (c :: p) :: ps
      | [] => [[c]]

/-- The `Yaml` tree of `src/yaml.rs`: `Value` holds a raw string, `Hash` a
key-to-node map (association list standing in for `HashMap`), `Array` an
ordered sequence. -/
inductive Yaml where
  | Value : Line → Yaml
  | Hash : List (Line × Yaml) → Yaml
  | Array : List Yaml → Yaml

/-- An entry of a `Hash`. -/
abbrev Entry := Line × Yaml

/-- `HashMap::insert`: replace the value at an existing key (keeping its slot),
otherwise add the new key at the end. -/
def yinsert (k : Line) (v : Yaml) : List Entry → List Entry
  | [] => [(k, v)]
  | e :: rest => if e.1 = k then (k, v) :: rest else e :: yinsert k v rest

/-- `Yaml::is_flat_hash`: a `Hash` all of whose values are `Value`s. -/
def is_flat_hash : Yaml → Bool
  | .Hash map => map.all (fun e => match e.2 with | .Value _ => true | _ => false)
  | _ => false

/-- `s.strip_prefix('{').and_then(|v| v.strip_suffix('}')).unwrap_or(s)`. -/
def inlineInner (s : Line) : Line :=
  if s.head? = some '{' && (s.drop 1).getLast? = some '}' then (s.drop 1).dropLast else s

/-- The comma-piece loop of `parse_inline_mapping`: split each piece at its
first colon into trimmed key and value (pieces without a colon are skipped),
inserting the value as a raw `Value`. -/
def inlineFold (parts : List Line) (mp : List Entry) : List Entry :=
  parts.foldl
    (fun mp part =>
      match findColon part with
      | some i => yinsert (trim (part.take i)) (Yaml.Value (trim (part.drop (i + 1)))) mp
      | none => mp) mp

/-- `parse_inline_mapping`: strip the brace pair if present, split on commas,
and run the key/value loop. -/
def parse_inline_mapping (s : Line) : Yaml :=
  Yaml.Hash (inlineFold (splitComma (inlineInner s)) [])

/-- The running state and result of one `parse_block` call: the mapping
accumulator, the array accumulator, the `is_array` flag, and the number of
lines consumed. -/
abbrev BSt := List Entry × List Yaml × Bool × Nat

/-- Add `k` to the consumed-lines count of a (possibly panicked or
fuel-starved) block result. -/
def addConsumed (k : Nat) : Option (Option BSt) → Option (Option BSt) :=
  Option.map (Option.map (fun st => (st.1, st.2.1, st.2.2.1, st.2.2.2 + k)))

/-- One iteration of the `parse_block` loop on the current line `l` with
remaining lines `t`, parameterized by the recursive entry `rec` used both to
continue the loop and to parse nested blocks.  Mirrors `src/yaml.rs` lines
334-458: indentation check, blank skip, the three sequence-item cases (bare
dash panics; inline `key: value` with optional nested-block merge that panics
when the nested block is not a `Hash`; scalar element), the `key: value` /
`key:` + nested block / inline-brace mapping cases, and the silent skip of
unrecognized lines. -/
def parseStep (rec : List Line → Nat → List Entry → List Yaml → Bool → Option (Option BSt))
    (l : Line) (t : List Line) (si : Nat) (m : List Entry) (a : List Yaml) (b : Bool) :
    Option (Option BSt) :=
  let ind := leadingSpaces l
  if ind < si then some (some (m, a, b, 0))
  else
    match trim l with
    | [] => addConsumed 1 (rec t si m a b)
    | c :: tr =>
      if c = '-' then
        match trim tr with
        | [] => some none
        | v0 :: vs =>
          match findColon (v0 :: vs) with
          | some idx =>
            let key := trim ((v0 :: vs).take idx)
            let value := trim ((v0 :: vs).drop (idx + 1))
            let cm0 : List Entry :=
              if value.head? = some '{' && value.getLast? = some '}' then
                yinsert key (parse_inline_mapping value) []
              else yinsert key (Yaml.Value value) []
            match t with
            | [] => addConsumed 1 (rec [] si m (a ++ [Yaml.Hash cm0]) true)
            | t0 :: _ =>
              if ind < leadingSpaces t0 then
                match rec t (ind + 2) [] [] false with
                | none => none
                | some none => some none
                | some (some (nm, _, nb, c1)) =>
                  if nb then some none
                  else
                    addConsumed (c1 + 1)
                      (rec (t.drop c1) si m
                        (a ++ [Yaml.Hash (nm.foldl (fun acc e => yinsert e.1 e.2 acc) cm0)]) true)
              else addConsumed 1 (rec t si m (a ++ [Yaml.Hash cm0]) true)
          | none => addConsumed 1 (rec t si m (a ++ [Yaml.Value (v0 :: vs)]) true)
      else
        match findColon (c :: tr) with
        | some idx =>
          let key := trim ((c :: tr).take idx)
          let vstr := trim ((c :: tr).drop (idx + 1))
          match vstr with
          | [] =>
            match rec t (ind + 2) [] [] false with
            | none => none
            | some none => some none
            | some (some (nm, na, nb, c1)) =>
              addConsumed (c1 + 1)
                (rec (t.drop c1) si
                  (yinsert key (if nb then Yaml.Array na else Yaml.Hash nm) m) a b)
          | v0 :: vtail =>
            if (v0 :: vtail).head? = some '{' && (v0 :: vtail).getLast? = some '}' then
              addConsumed 1 (rec t si (yinsert key (parse_inline_mapping (v0 :: vtail)) m) a b)
            else addConsumed 1 (rec t si (yinsert key (Yaml.Value (v0 :: vtail)) m) a b)
        | none => addConsumed 1 (rec t si m a b)

/-- Fueled `parse_block` loop.  `none` means the fuel ran out (never happens
when the fuel is at least the number of lines, see `parseBF_isSome`);
`some none` mirrors a panic of the reference code. -/
def parseBF : Nat → List Line → Nat → List Entry → List Yaml → Bool → Option (Option BSt)
  | _, [], _, m, a, b => some (some (m, a, b, 0))
  | 0, _ :: _, _, _, _, _ => none
  | f + 1, l :: t, si, m, a, b => parseStep (parseBF f) l t si m a b

/-- `parse_block(lines, start_indent)`: the constructed node (array if the
`is_array` flag was set, otherwise hash) together with the number of lines
consumed; `none` mirrors a panic. -/
def parse_block (lines : List Line) (start_indent : Nat) : Option (Yaml × Nat) :=
  match parseBF lines.length lines start_indent [] [] false with
  | some (some (m, a, b, n)) => some ((if b then Yaml.Array a else Yaml.Hash m), n)
  | _ => none

/-- `Yaml::parse_unity_object`: parse the whole document as a block at
indentation 0; `none` mirrors a panic. -/
def parse_unity_object (lines : List Line) : Option Yaml :=
  (parse_block lines 0).map Prod.fst

/-- `"  ".repeat(indent)`. -/
def indentStr (n : Nat) : Line := List.replicate (2 * n) ' '

/-- `Yaml::fmt_with_indent`, as the list of lines written by its `writeln!`
calls (one list element per `writeln!`): a `Value` under a key or dash is
written inline on that line; a nested `Hash`/`Array` gets a `key:` (resp.
a bare `"- "`) line followed by its own lines at `indent + 1`.  A bare
`Value` prints its raw text. -/
def fmt_with_indent : Yaml → Nat → List Line
  | .Value v, _ => [v]
  | .Hash [], _ => []
  | .Hash ((k, .Value s) :: rest), ind =>
    (indentStr ind ++ k ++ ':' :: ' ' :: s) :: fmt_with_indent (.Hash rest) ind
  | .Hash ((k, .Hash h2) :: rest), ind =>
    (indentStr ind ++ k ++ [':']) ::
      (fmt_with_indent (.Hash h2) (ind + 1) ++ fmt_with_indent (.Hash rest) ind)
  | .Hash ((k, .Array a2) :: rest), ind =>
    (indentStr ind ++ k ++ [':']) ::
      (fmt_with_indent (.Array a2) (ind + 1) ++ fmt_with_indent (.Hash rest) ind)
  | .Array [], _ => []
  | .Array (.Value s :: rest), ind =>
    (indentStr ind ++ '-' :: ' ' :: s) :: fmt_with_indent (.Array rest) ind
  | .Array (.Hash h2 :: rest), ind =>
    (indentStr ind ++ ['-', ' ']) ::
      (fmt_with_indent (.Hash h2) (ind + 1) ++ fmt_with_indent (.Array rest) ind)
  | .Array (.Array a2 :: rest), ind =>
    (indentStr ind ++ ['-', ' ']) ::
      (fmt_with_indent (.Array a2) (ind + 1) ++ fmt_with_indent (.Array rest) ind)
termination_by y _ => sizeOf y
decreasing_by all_goals (simp_wf <;> omega)

/-- Join lines, terminating each with a newline (each `writeln!` appends one). -/
def unlinesN (ls : List Line) : Line := ls.foldr (fun l acc => l ++ '\n' :: acc) []

/-- The `Display` output: `fmt_with_indent(f, 0)`, where a bare `Value` is
written without a newline and every `Hash`/`Array` line is terminated by its
`writeln!`. -/
def displayYaml (y : Yaml) : Line :=
  match y with
  | .Value v => v
  | _ => unlinesN (fmt_with_indent y 0)

/-- Split at every newline (used to model `str::lines`). -/
def splitNl (s : Line) : List Line :=
  s.foldr
    (fun c acc =>
      if c = '\n' then [] :: acc
      else
        match acc with
        | p :: ps => (c :: p) :: ps
        | [] => [[c]]) [[]]

/-- Drop one trailing carriage return, as `str::lines` does on each line. -/
def stripCR (l : Line) : Line := if l.getLast? = some '\r' then l.dropLast else l

/-- `str::lines`: split on newlines, dropping the final empty piece produced
by a trailing newline (or by emptiness), stripping one `\r` per line. -/
def rustLines (s : Line) : List Line :=
  (if s.getLast? = some '\n' || s.isEmpty then (splitNl s).dropLast else splitNl s).map stripCR

/-- A line whose trimmed content starts with a dash (a sequence-item line). -/
def dashLine (l : Line) : Bool :=
  match trim l with
  | [] => false
  | c :: _ => c = '-'

/-- A sequence-item line whose content after the dash is empty (the bare-dash
case, fatal in the reference implementation). -/
def bareDash (l : Line) : Bool :=
  match trim l with
  | [] => false
  | c :: tr => c = '-' && (trim tr).isEmpty

/-- Offset of the first line whose leading-space count is strictly below
`si` (the input length if there is none): the point where a block at
`start_indent = si` must stop. -/
def firstShallowIdx : List Line → Nat → Nat
  | [], _ => 0
  | l :: t, si => if leadingSpaces l < si then 0 else firstShallowIdx t si + 1

/-- The first character, if any, is not whitespace. -/
def headOkB (l : Line) : Bool :=
  match l with
  | [] => true
  | c :: _ => !isWS c

/-- The last character, if any, is not whitespace. -/
def lastOkB (l : Line) : Bool :=
  match l.getLast? with
  | none => true
  | some c => !isWS c

/-- A scalar payload that survives the serialize/parse cycle verbatim when
used as a mapping value: nonempty, no surrounding whitespace, no newline,
and not wrapped in a brace pair (which would re-parse as an inline mapping). -/
def goodScalar (s : Line) : Bool :=
  !s.isEmpty && headOkB s && lastOkB s && decide ('\n' ∉ s) &&
    !(decide (s.head? = some '{') && decide (s.getLast? = some '}'))

/-- A scalar payload that survives as a sequence element: additionally free of
colons (a colon would re-parse the element as a one-field mapping). -/
def goodElemScalar (s : Line) : Bool := goodScalar s && decide (':' ∉ s)

/-- A mapping key that survives the cycle: no surrounding whitespace, no
newline, no colon (the parser splits at the first colon), and not starting
with a dash (which would re-parse the line as a sequence item). -/
def goodKey (k : Line) : Bool :=
  headOkB k && lastOkB k && decide ('\n' ∉ k) && decide (':' ∉ k) &&
    !(decide (k.head? = some '-'))

/-- Trees built from the supported grammar for which the serializer emits a
document the parser maps back to the same tree: scalars and keys as above,
mapping keys duplicate-free, and sequences nonempty with scalar elements
(a non-scalar sequence element serializes to a bare dash followed by a nested
block, which the reference parser treats as fatal, and an empty sequence
serializes to nothing and re-parses as an empty mapping). -/
inductive GoodNode : Yaml → Prop where
  | value : ∀ s : Line, goodScalar s = true → GoodNode (Yaml.Value s)
  | hash : ∀ m : List Entry, (m.map Prod.fst).Nodup →
      (∀ e ∈ m, goodKey e.1 = true) → (∀ e ∈ m, GoodNode e.2) → GoodNode (Yaml.Hash m)
  | arr : ∀ a : List Yaml, a ≠ [] →
      (∀ x ∈ a, ∃ s, x = Yaml.Value s ∧ goodElemScalar s = true) → GoodNode (Yaml.Array a)

/-- Mapping or sequence nodes (a document root: a bare scalar's text is not
line-structured). -/
def isContainer : Yaml → Bool
  | .Value _ => false
  | _ => true

/-- A tree for which the round trip is claimed: a good mapping or sequence. -/
def GoodRoot (t : Yaml) : Prop := GoodNode t ∧ isContainer t = true

/-! ### Helper lemmas about `yinsert` and `parse_inline_mapping` -/

/-- A property of all values of a map is preserved by inserting a value that
has it. -/
theorem yinsert_values (P : Yaml → Prop) {k : Line} {v : Yaml} (hv : P v) :
    ∀ m : List Entry, (∀ e ∈ m, P e.2) → ∀ e ∈ yinsert k v m, P e.2 := by
  intro m
  induction m with
  | nil =>
    intro _ e he
    simp only [yinsert, List.mem_singleton] at he
    subst he; exact hv
  | cons e0 rest ih =>
    intro hm e he
    simp only [yinsert] at he
    by_cases h0 : e0.1 = k
    · rw [if_pos h0] at he
      rcases List.mem_cons.1 he with he | he
      · subst he; exact hv
      · exact hm _ (List.mem_cons_of_mem _ he)
    · rw [if_neg h0] at he
      rcases List.mem_cons.1 he with he | he
      · subst he; exact hm _ (List.mem_cons_self _ _)
      · exact ih (fun e2 h2 => hm _ (List.mem_cons_of_mem _ h2)) _ he

/-- The fold of `parse_inline_mapping` only ever stores `Value`s. -/
theorem inline_fold_values (parts : List Line) (mp : List Entry)
    (h : ∀ e ∈ mp, ∃ w, e.2 = Yaml.Value w) :
    ∀ e ∈ inlineFold parts mp, ∃ w, e.2 = Yaml.Value w := by
  induction parts generalizing mp with
  | nil => exact h
  | cons p ps ih =>
    intro e he
    simp only [inlineFold, List.foldl_cons] at he
    cases hc : findColon p with
    | none =>
      rw [hc] at he
      exact ih mp h e he
    | some i =>
      rw [hc] at he
      exact ih _ (yinsert_values (fun y => ∃ w, y = Yaml.Value w) ⟨_, rfl⟩ mp h) e he

/-! ### The geometry of `firstShallowIdx` -/

theorem fs_le_length (ls : List Line) (si : Nat) : firstShallowIdx ls si ≤ ls.length := by
  induction ls with
  | nil => simp [firstShallowIdx]
  | cons l t ih =>
    simp only [firstShallowIdx]
    split
    · simp
    · simpa using ih

theorem fs_before (ls : List Line) (si : Nat) :
    ∀ j, j < firstShallowIdx ls si → ¬ leadingSpaces (ls.getD j []) < si := by
  induction ls with
  | nil => simp [firstShallowIdx]
  | cons l t ih =>
    intro j hj
    simp only [firstShallowIdx] at hj
    split at hj
    · omega
    · cases j with
      | zero => simpa using (by assumption : ¬ leadingSpaces l < si)
      | succ j2 => simpa using ih j2 (by omega)

theorem fs_hit (ls : List Line) (si : Nat) :
    firstShallowIdx ls si < ls.length →
    leadingSpaces (ls.getD (firstShallowIdx ls si) []) < si := by
  induction ls with
  | nil => intro h; simp [firstShallowIdx] at h
  | cons l t ih =>
    intro h
    by_cases hl : leadingSpaces l < si
    · simp [firstShallowIdx, hl]
    · simp only [firstShallowIdx, if_neg hl, List.length_cons] at h ⊢
      simp only [List.getD_cons_succ]
      exact ih (by omega)

theorem fs_skip (c : Nat) : ∀ ls : List Line, ∀ si, c ≤ ls.length →
    (∀ j, j < c → ¬ leadingSpaces (ls.getD j []) < si) →
    firstShallowIdx ls si = c + firstShallowIdx (ls.drop c) si := by
  induction c with
  | zero => intro ls si _ _; simp
  | succ c2 ih =>
    intro ls si hc h
    cases ls with
    | nil => simp at hc
    | cons l t =>
      have h0 : ¬ leadingSpaces l < si := by simpa using h 0 (by omega)
      simp only [firstShallowIdx, if_neg h0, List.drop_succ_cons]
      have := ih t si (by simpa using hc) (fun j hj => by simpa using h (j + 1) (by omega))
      omega

theorem fs_zero (ls : List Line) : firstShallowIdx ls 0 = ls.length := by
  induction ls with
  | nil => rfl
  | cons l t ih => simp [firstShallowIdx, ih]

theorem getD_drop (t : List Line) (c j : Nat) : (t.drop c).getD j [] = t.getD (c + j) [] := by
  simp [List.getD, List.getElem?_drop]

/-! ### Basic equations for the fueled parser -/

theorem parseBF_nil (f si : Nat) (m : List Entry) (a : List Yaml) (b : Bool) :
    parseBF f [] si m a b = some (some (m, a, b, 0)) := by
  cases f <;> rfl

theorem addConsumed_some_inv {k : Nat} {X : Option (Option BSt)}
    {m2 : List Entry} {a2 : List Yaml} {b2 : Bool} {n : Nat}
    (h : addConsumed k X = some (some (m2, a2, b2, n))) :
    ∃ n1, X = some (some (m2, a2, b2, n1)) ∧ n = n1 + k := by
  match X with
  | none => simp [addConsumed] at h
  | some none => simp [addConsumed] at h
  | some (some (m1, a1, b1, n1)) =>
    obtain ⟨hm, ha, hb, hn⟩ : m1 = m2 ∧ a1 = a2 ∧ b1 = b2 ∧ n1 + k = n := by
      have h3 : ((m1, a1, b1, n1 + k) : BSt) = (m2, a2, b2, n) :=
        Option.some.inj (Option.some.inj h)
      simpa [Prod.ext_iff] using h3
    subst hm; subst ha; subst hb
    exact ⟨n1, rfl, hn.symm⟩

/-- Composition step used by the master induction on the `parse_block` loop:
from the facts about the lines consumed by a nested block (`c0` of them, all
strictly deeper than `si + 1`) and the facts about the continuation of the
loop on the remaining lines `u`, derive the same facts for the whole block
starting at the processed line `l`. -/
theorem shift_step {l : Line} {t u : List Line} {si : Nat} {b b1 b2 : Bool} {c0 n1 n : Nat}
    (hfs : ¬ leadingSpaces l < si)
    (hhead : (dashLine l = false ∧ b1 = b) ∨ (dashLine l = true ∧ b1 = true))
    (hbare : bareDash l = false)
    (hc0 : c0 ≤ t.length)
    (hu : t.drop c0 = u)
    (hskip : ∀ j, j < c0 → ¬ leadingSpaces (t.getD j []) < si + 2)
    (hnb : ∀ j, j < c0 → bareDash (t.getD j []) = false)
    (hn : n = n1 + c0 + 1)
    (IH1 : n1 = firstShallowIdx u si)
    (IH2 : ∀ j, j < n1 → bareDash (u.getD j []) = false)
    (IH3 : b1 = true → b2 = true)
    (IH4 : (∀ j, j < n1 → dashLine (u.getD j []) = false) → b2 = b1)
    (IH5 : (∃ j, j < n1 ∧ leadingSpaces (u.getD j []) < si + 2 ∧ dashLine (u.getD j []) = true) →
      b2 = true) :
    n = firstShallowIdx (l :: t) si ∧
    (∀ j, j < n → bareDash ((l :: t).getD j []) = false) ∧
    (b = true → b2 = true) ∧
    ((∀ j, j < n → dashLine ((l :: t).getD j []) = false) → b2 = b) ∧
    ((∃ j, j < n ∧ leadingSpaces ((l :: t).getD j []) < si + 2 ∧
        dashLine ((l :: t).getD j []) = true) → b2 = true) := by
  have hufs : firstShallowIdx t si = c0 + firstShallowIdx u si := by
    rw [← hu]
    exact fs_skip c0 t si hc0 (fun j hj => by have := hskip j hj; omega)
  have hgu : ∀ j, u.getD j [] = t.getD (c0 + j) [] := fun j => by rw [← hu, getD_drop]
  refine ⟨?_, ?_, ?_, ?_, ?_⟩
  · simp only [firstShallowIdx, if_neg hfs]
    omega
  · intro j hj
    cases j with
    | zero => simpa using hbare
    | succ j2 =>
      simp only [List.getD_cons_succ]
      by_cases hj2 : j2 < c0
      · exact hnb j2 hj2
      · have h2 := IH2 (j2 - c0) (by omega)
        rw [hgu] at h2
        have : c0 + (j2 - c0) = j2 := by omega
        rwa [this] at h2
  · intro hb
    rcases hhead with ⟨_, h1⟩ | ⟨_, h1⟩
    · exact IH3 (h1.trans hb)
    · exact IH3 h1
  · intro hnod
    rcases hhead with ⟨hd, h1⟩ | ⟨hd, h1⟩
    · rw [IH4, h1]
      intro j hj
      rw [hgu]
      have := hnod (c0 + j + 1) (by omega)
      simpa using this
    · have := hnod 0 (by omega)
      simp [hd] at this
  · intro hex
    rcases hhead with ⟨hd, h1⟩ | ⟨hd, h1⟩
    · obtain ⟨j, hj, hlt, hdl⟩ := hex
      cases j with
      | zero => simp only [List.getD_cons_zero] at hdl; rw [hd] at hdl; exact absurd hdl (by simp)
      | succ j2 =>
        simp only [List.getD_cons_succ] at hlt hdl
        by_cases hj2 : j2 < c0
        · exact absurd hlt (hskip j2 hj2)
        · have hco : c0 + (j2 - c0) = j2 := by omega
          refine IH5 ⟨j2 - c0, by omega, ?_, ?_⟩
          · rw [hgu, hco]; exact hlt
          · rw [hgu, hco]; exact hdl
    · exact IH3 h1

theorem addConsumed_ne_none (k : Nat) {X : Option (Option BSt)} (h : X ≠ none) :
    addConsumed k X ≠ none := by
  cases X with
  | none => exact absurd rfl h
  | some o => simp [addConsumed]

/-- With fuel at least the number of lines, the fueled loop never exhausts its
fuel: every `none` of `parse_block` really models a panic of the reference
implementation. -/
theorem parseBF_ne_none : ∀ f : Nat, ∀ ls : List Line, ∀ si : Nat, ∀ m : List Entry,
    ∀ a : List Yaml, ∀ b : Bool, ls.length ≤ f → parseBF f ls si m a b ≠ none := by
  intro f
  induction f with
  | zero =>
    intro ls si m a b hlen
    cases ls with
    | nil => rw [parseBF_nil]; simp
    | cons l t => simp at hlen
  | succ f ih =>
    intro ls si m a b hlen
    cases ls with
    | nil => rw [parseBF_nil]; simp
    | cons l t =>
      have hlt : t.length ≤ f := by simp only [List.length_cons] at hlen; omega
      show parseStep (parseBF f) l t si m a b ≠ none
      simp only [parseStep]
      split
      · simp
      · split
        · exact addConsumed_ne_none _ (ih t si _ _ _ hlt)
        · split
          · split
            · simp
            · split
              · split
                · exact addConsumed_ne_none _ (ih [] si _ _ _ (by simp))
                · rename_i t0 t1
                  split
                  · split
                    · rename_i hn0
                      exact absurd hn0 (ih (t0 :: t1) _ _ _ _ hlt)
                    · simp
                    · split
                      · simp
                      · exact addConsumed_ne_none _
                          (ih ((t0 :: t1).drop _) si _ _ _ (by rw [List.length_drop]; omega))
                  · exact addConsumed_ne_none _ (ih (t0 :: t1) si _ _ _ hlt)
              · exact addConsumed_ne_none _ (ih t si _ _ _ hlt)
          · split
            · split
              · split
                · rename_i hn0
                  exact absurd hn0 (ih t _ _ _ _ hlt)
                · simp
                · exact addConsumed_ne_none _
                    (ih (t.drop _) si _ _ _ (by rw [List.length_drop]; omega))
              · split
                · exact addConsumed_ne_none _ (ih t si _ _ _ hlt)
                · exact addConsumed_ne_none _ (ih t si _ _ _ hlt)
            · exact addConsumed_ne_none _ (ih t si _ _ _ hlt)

/-- Master induction on the `parse_block` loop.  For every successful run:
the consumed count is the offset of the first line shallower than
`start_indent`; no consumed line is a bare dash; the `is_array` flag is
monotone, unchanged when no consumed line is a dash line, and forced to
`true` by any consumed dash line shallower than `start_indent + 2` (such a
line is necessarily processed by this block's own loop, not by a nested
sub-block). -/
theorem parseBF_master : ∀ f : Nat, ∀ ls : List Line, ∀ si : Nat, ∀ m : List Entry,
    ∀ a : List Yaml, ∀ b : Bool, ∀ m2 : List Entry, ∀ a2 : List Yaml, ∀ b2 : Bool, ∀ n : Nat,
    ls.length ≤ f →
    parseBF f ls si m a b = some (some (m2, a2, b2, n)) →
    n = firstShallowIdx ls si ∧
    (∀ j, j < n → bareDash (ls.getD j []) = false) ∧
    (b = true → b2 = true) ∧
    ((∀ j, j < n → dashLine (ls.getD j []) = false) → b2 = b) ∧
    ((∃ j, j < n ∧ leadingSpaces (ls.getD j []) < si + 2 ∧ dashLine (ls.getD j []) = true) →
      b2 = true) := by
  intro f
  induction f with
  | zero =>
    intro ls si m a b m2 a2 b2 n hlen h
    cases ls with
    | cons l t => simp at hlen
    | nil =>
      rw [parseBF_nil] at h
      obtain ⟨hm, ha, hb, hn⟩ : m = m2 ∧ a = a2 ∧ b = b2 ∧ 0 = n := by
        have h3 : ((m, a, b, 0) : BSt) = (m2, a2, b2, n) := Option.some.inj (Option.some.inj h)
        simpa [Prod.ext_iff] using h3
      subst hb; subst hn
      exact ⟨rfl, fun j hj => absurd hj (by omega), fun x => x, fun _ => rfl,
        fun ⟨j, hj, _⟩ => absurd hj (by omega)⟩
  | succ f ih =>
    intro ls si m a b m2 a2 b2 n hlen h
    cases ls with
    | nil =>
      rw [parseBF_nil] at h
      obtain ⟨hm, ha, hb, hn⟩ : m = m2 ∧ a = a2 ∧ b = b2 ∧ 0 = n := by
        have h3 : ((m, a, b, 0) : BSt) = (m2, a2, b2, n) := Option.some.inj (Option.some.inj h)
        simpa [Prod.ext_iff] using h3
      subst hb; subst hn
      exact ⟨rfl, fun j hj => absurd hj (by omega), fun x => x, fun _ => rfl,
        fun ⟨j, hj, _⟩ => absurd hj (by omega)⟩
    | cons l t =>
      have hlt : t.length ≤ f := by simp only [List.length_cons] at hlen; omega
      have hstep : parseStep (parseBF f) l t si m a b = some (some (m2, a2, b2, n)) := h
      clear h
      simp only [parseStep] at hstep
      split at hstep
      · -- break: the line is shallower than start_indent
        rename_i hind
        obtain ⟨hm, ha, hb, hn⟩ : m = m2 ∧ a = a2 ∧ b = b2 ∧ 0 = n := by
          have h3 : ((m, a, b, 0) : BSt) = (m2, a2, b2, n) :=
            Option.some.inj (Option.some.inj hstep)
          simpa [Prod.ext_iff] using h3
        subst hb; subst hn
        refine ⟨by simp [firstShallowIdx, hind], fun j hj => absurd hj (by omega),
          fun x => x, fun _ => rfl, fun ⟨j, hj, _⟩ => absurd hj (by omega)⟩
      · rename_i hind
        split at hstep
        · -- blank line: skipped
          rename_i htr
          obtain ⟨n1, hcont, hn⟩ := addConsumed_some_inv hstep
          obtain ⟨IH1, IH2, IH3, IH4, IH5⟩ := ih t si _ _ _ _ _ _ _ hlt hcont
          exact shift_step hind (Or.inl ⟨by simp [dashLine, htr], rfl⟩)
            (by simp [bareDash, htr]) (Nat.zero_le _) (List.drop_zero _)
            (fun j hj => absurd hj (by omega)) (fun j hj => absurd hj (by omega))
            hn IH1 IH2 IH3 IH4 IH5
        · rename_i c tr htr
          split at hstep
          · -- sequence-item line
            rename_i hc
            split at hstep
            · -- bare dash: the reference panics
              rename_i hvs
              simp at hstep
            · rename_i v0 vs hvs
              split at hstep
              · -- inline key: value on the item
                rename_i idx hfc
                split at hstep
                · -- no following line at all
                  obtain ⟨n1, hcont, hn⟩ := addConsumed_some_inv hstep
                  obtain ⟨IH1, IH2, IH3, IH4, IH5⟩ := ih [] si _ _ _ _ _ _ _ (by simp) hcont
                  exact shift_step hind (Or.inr ⟨by simp [dashLine, htr, hc], rfl⟩)
                    (by simp [bareDash, htr, hc, hvs]) (Nat.zero_le _) (List.drop_zero [])
                    (fun j hj => absurd hj (by omega)) (fun j hj => absurd hj (by omega))
                    hn IH1 IH2 IH3 IH4 IH5
                · rename_i t0 t1
                  split at hstep
                  · -- next line deeper: nested block is parsed and merged
                    rename_i hni
                    split at hstep
                    · simp at hstep
                    · simp at hstep
                    · rename_i nm na nb c1 hn0
                      split at hstep
                      · simp at hstep
                      · rename_i hnb
                        obtain ⟨n1, hcont, hn⟩ := addConsumed_some_inv hstep
                        obtain ⟨N1, N2, N3, N4, N5⟩ :=
                          ih (t0 :: t1) (leadingSpaces l + 2) [] [] false nm na nb c1 hlt hn0
                        have hc1len : c1 ≤ (t0 :: t1).length :=
                          N1 ▸ fs_le_length (t0 :: t1) (leadingSpaces l + 2)
                        obtain ⟨IH1, IH2, IH3, IH4, IH5⟩ :=
                          ih ((t0 :: t1).drop c1) si _ _ _ _ _ _ _
                            (by rw [List.length_drop]; omega) hcont
                        refine shift_step hind (Or.inr ⟨by simp [dashLine, htr, hc], rfl⟩)
                          (by simp [bareDash, htr, hc, hvs]) hc1len rfl
                          (fun j hj => ?_) (fun j hj => N2 j (N1 ▸ hj))
                          hn IH1 IH2 IH3 IH4 IH5
                        have := fs_before (t0 :: t1) (leadingSpaces l + 2) j (N1 ▸ hj)
                        omega
                  · -- next line not deeper
                    rename_i hni
                    obtain ⟨n1, hcont, hn⟩ := addConsumed_some_inv hstep
                    obtain ⟨IH1, IH2, IH3, IH4, IH5⟩ :=
                      ih (t0 :: t1) si _ _ _ _ _ _ _ hlt hcont
                    exact shift_step hind (Or.inr ⟨by simp [dashLine, htr, hc], rfl⟩)
                      (by simp [bareDash, htr, hc, hvs]) (Nat.zero_le _) (List.drop_zero _)
                      (fun j hj => absurd hj (by omega)) (fun j hj => absurd hj (by omega))
                      hn IH1 IH2 IH3 IH4 IH5
              · -- scalar sequence element
                rename_i hfc
                obtain ⟨n1, hcont, hn⟩ := addConsumed_some_inv hstep
                obtain ⟨IH1, IH2, IH3, IH4, IH5⟩ := ih t si _ _ _ _ _ _ _ hlt hcont
                exact shift_step hind (Or.inr ⟨by simp [dashLine, htr, hc], rfl⟩)
                  (by simp [bareDash, htr, hc, hvs]) (Nat.zero_le _) (List.drop_zero _)
                  (fun j hj => absurd hj (by omega)) (fun j hj => absurd hj (by omega))
                  hn IH1 IH2 IH3 IH4 IH5
          · -- plain mapping line
            rename_i hc
            split at hstep
            · rename_i idx hfc
              split at hstep
              · -- empty value: nested block becomes the entry's value
                rename_i hvst
                split at hstep
                · simp at hstep
                · simp at hstep
                · rename_i nm na nb c1 hn0
                  obtain ⟨n1, hcont, hn⟩ := addConsumed_some_inv hstep
                  obtain ⟨N1, N2, N3, N4, N5⟩ :=
                    ih t (leadingSpaces l + 2) [] [] false nm na nb c1 hlt hn0
                  have hc1len : c1 ≤ t.length := N1 ▸ fs_le_length t (leadingSpaces l + 2)
                  obtain ⟨IH1, IH2, IH3, IH4, IH5⟩ :=
                    ih (t.drop c1) si _ _ _ _ _ _ _ (by rw [List.length_drop]; omega) hcont
                  refine shift_step hind (Or.inl ⟨by simp [dashLine, htr, hc], rfl⟩)
                    (by simp [bareDash, htr, hc]) hc1len rfl
                    (fun j hj => ?_) (fun j hj => N2 j (N1 ▸ hj))
                    hn IH1 IH2 IH3 IH4 IH5
                  have := fs_before t (leadingSpaces l + 2) j (N1 ▸ hj)
                  omega
              · -- non-empty value: inline mapping or raw scalar
                rename_i v0 vtail hvst
                split at hstep <;>
                  (obtain ⟨n1, hcont, hn⟩ := addConsumed_some_inv hstep;
                   obtain ⟨IH1, IH2, IH3, IH4, IH5⟩ := ih t si _ _ _ _ _ _ _ hlt hcont;
                   exact shift_step hind (Or.inl ⟨by simp [dashLine, htr, hc], rfl⟩)
                     (by simp [bareDash, htr, hc]) (Nat.zero_le _) (List.drop_zero _)
                     (fun j hj => absurd hj (by omega)) (fun j hj => absurd hj (by omega))
                     hn IH1 IH2 IH3 IH4 IH5)
            · -- unrecognized line: skipped
              rename_i hfc
              obtain ⟨n1, hcont, hn⟩ := addConsumed_some_inv hstep
              obtain ⟨IH1, IH2, IH3, IH4, IH5⟩ := ih t si _ _ _ _ _ _ _ hlt hcont
              exact shift_step hind (Or.inl ⟨by simp [dashLine, htr, hc], rfl⟩)
                (by simp [bareDash, htr, hc]) (Nat.zero_le _) (List.drop_zero _)
                (fun j hj => absurd hj (by omega)) (fun j hj => absurd hj (by omega))
                hn IH1 IH2 IH3 IH4 IH5

/-! ### Claim C3: the indentation boundary of a block -/

/-- Claim C3: a successful `parse_block` at `start_indent` never consumes a
line with fewer leading spaces: the returned count is exactly the offset of
the first shallower line (the input length if there is none) — every earlier
line is at least `start_indent` deep, and the line at the returned offset,
when it exists, is strictly shallower, so the caller resumes exactly there. -/
theorem c3_block_boundary : ∀ lines : List Line, ∀ si : Nat, ∀ y : Yaml, ∀ n : Nat,
    parse_block lines si = some (y, n) →
    n = firstShallowIdx lines si ∧
    (∀ j, j < n → ¬ leadingSpaces (lines.getD j []) < si) ∧
    n ≤ lines.length ∧
    (n < lines.length → leadingSpaces (lines.getD n []) < si) := by
  intro lines si y n h
  unfold parse_block at h
  split at h
  · rename_i m a b n0 hp
    have hn : n0 = n := by
      have h2 := Option.some.inj h
      exact (Prod.ext_iff.1 h2).2
    subst hn
    obtain ⟨N1, -, -, -, -⟩ := parseBF_master lines.length lines si [] [] false m a b n0 le_rfl hp
    refine ⟨N1, ?_, ?_, ?_⟩
    · intro j hj
      rw [N1] at hj
      exact fs_before lines si j hj
    · rw [N1]
      exact fs_le_length lines si
    · intro hl
      rw [N1] at hl ⊢
      exact fs_hit lines si hl
  · simp at h

/-- Witness for C3 at a concrete block: two lines, the second shallower. -/
theorem c3_block_boundary_witness :
    1 = firstShallowIdx ["  a: 1".data, "b: 2".data] 2 ∧
    (∀ j, j < 1 → ¬ leadingSpaces (["  a: 1".data, "b: 2".data].getD j []) < 2) ∧
    1 ≤ (["  a: 1".data, "b: 2".data] : List Line).length ∧
    (1 < (["  a: 1".data, "b: 2".data] : List Line).length →
      leadingSpaces (["  a: 1".data, "b: 2".data].getD 1 []) < 2) :=
  c3_block_boundary ["  a: 1".data, "b: 2".data] 2
    (Yaml.Hash [("a".data, Yaml.Value "1".data)]) 1 rfl

/-! ### Claim C4: blank lines -/

/-- Counterexample to claim C4: a blank line does terminate a block when it is
shallower than `start_indent` (the indentation check precedes the blank
check).  A block at `start_indent = 2` whose first line is empty returns at
once, consuming nothing; at document level the empty line cuts the nested
block of key `a` short, so `c` lands in the top-level mapping instead of in
the block of `a`. -/
theorem c4_blank_counterexample :
    parse_block [[], "  b: 1".data] 2 = some (Yaml.Hash [], 0) ∧
    parse_unity_object ["a:".data, "  b: 1".data, [], "  c: 2".data] =
      some (Yaml.Hash [("a".data, Yaml.Hash [("b".data, Yaml.Value "1".data)]),
        ("c".data, Yaml.Value "2".data)]) :=
  ⟨rfl, rfl⟩

/-- Claim C4 as amended: a blank line whose leading-space count is at least
`start_indent` is skipped — parsing continues on the remaining lines as the
same block and the blank contributes only one consumed line — while a blank
line with fewer leading spaces than `start_indent` terminates the block
(in particular, at the top level `start_indent = 0` every blank line is
skipped). -/
theorem c4_blank_lines (l : Line) (ls : List Line) (si : Nat) (hblank : trim l = []) :
    (si ≤ leadingSpaces l →
      parse_block (l :: ls) si = (parse_block ls si).map (fun p => (p.1, p.2 + 1))) ∧
    (leadingSpaces l < si → parse_block (l :: ls) si = some (Yaml.Hash [], 0)) := by
  constructor
  · intro hge
    have hstep : parseBF (l :: ls).length (l :: ls) si [] [] false
        = addConsumed 1 (parseBF ls.length ls si [] [] false) := by
      show parseStep (parseBF ls.length) l ls si [] [] false = _
      simp only [parseStep, hblank, if_neg (show ¬ leadingSpaces l < si by omega)]
    unfold parse_block
    rw [hstep]
    cases hp : parseBF ls.length ls si [] [] false with
    | none => simp [addConsumed]
    | some o =>
      cases o with
      | none => simp [addConsumed]
      | some st =>
        obtain ⟨m, a, b, n0⟩ := st
        simp [addConsumed]
  · intro hlt
    have hstep : parseBF (l :: ls).length (l :: ls) si [] [] false
        = some (some ([], [], false, 0)) := by
      show parseStep (parseBF ls.length) l ls si [] [] false = _
      simp only [parseStep, if_pos hlt]
    unfold parse_block
    rw [hstep]
    rfl

/-- Witness for C4 as amended: an empty line at the top level is skipped, and
an empty line inside a block at `start_indent = 2` terminates it. -/
theorem c4_blank_lines_witness :
    (parse_block ([] :: ["a: 1".data]) 0 =
      (parse_block ["a: 1".data] 0).map (fun p => (p.1, p.2 + 1))) ∧
    parse_block ([] :: ["  b: 1".data]) 2 = some (Yaml.Hash [], 0) :=
  ⟨(c4_blank_lines [] ["a: 1".data] 0 rfl).1 (Nat.zero_le _),
   (c4_blank_lines [] ["  b: 1".data] 2 rfl).2 (by decide)⟩

/-! ### Claim C5: bare dashes are fatal -/

/-- Claim C5: any document containing a bare-dash line (a sequence-item line
whose trimmed content after the dash is empty) makes `parse_unity_object`
fail — the panic branch is reached and no tree is returned. -/
theorem c5_bare_dash_fatal : ∀ lines : List Line,
    (∃ l ∈ lines, bareDash l = true) → parse_unity_object lines = none := by
  intro lines h
  obtain ⟨l, hl, hbd⟩ := h
  obtain ⟨j, hj, hgl⟩ := List.getElem_of_mem hl
  cases hp : parseBF lines.length lines 0 [] [] false with
  | none => exact absurd hp (parseBF_ne_none lines.length lines 0 [] [] false le_rfl)
  | some o =>
    cases o with
    | none => simp [parse_unity_object, parse_block, hp]
    | some st =>
      obtain ⟨m, a, b, n⟩ := st
      exfalso
      obtain ⟨N1, N2, -, -, -⟩ := parseBF_master lines.length lines 0 [] [] false m a b n le_rfl hp
      rw [fs_zero] at N1
      have hbd2 := N2 j (by omega)
      rw [List.getD_eq_getElem lines [] hj, hgl, hbd] at hbd2
      exact absurd hbd2 (by simp)

/-- Witness for C5: the one-line document consisting of a single dash. -/
theorem c5_bare_dash_fatal_witness : parse_unity_object ["-".data] = none :=
  c5_bare_dash_fatal ["-".data] ⟨"-".data, by simp, rfl⟩

/-! ### Claim C6: block-kind decision -/

/-- Counterexample to claim C6: the one-line document whose only line is a
dash line indented two spaces parses (at the block's own indentation level 0)
to a Sequence although no line at indentation 0 begins with a dash — a dash
line deeper than the block's level, processed by the block's own loop, also
forces the Sequence classification. -/
theorem c6_counterexample :
    parse_unity_object ["  - a".data] = some (Yaml.Array [Yaml.Value "a".data]) ∧
    (∀ l ∈ (["  - a".data] : List Line), leadingSpaces l ≠ 0) :=
  ⟨rfl, by decide⟩

/-- Claim C6 as amended: a successfully parsed block is a Mapping whenever
none of its consumed lines is a dash line, and a Sequence whenever some
consumed line shallower than `start_indent + 2` is a dash line (such a line
is necessarily processed by the block's own loop and not by a nested
sub-block; dash lines consumed at greater depths may either belong to nested
blocks or — as in the counterexample — also set the Sequence flag). -/
theorem c6_block_kind : ∀ lines : List Line, ∀ si : Nat, ∀ y : Yaml, ∀ n : Nat,
    parse_block lines si = some (y, n) →
    ((∀ j, j < n → dashLine (lines.getD j []) = false) → ∃ m2, y = Yaml.Hash m2) ∧
    ((∃ j, j < n ∧ leadingSpaces (lines.getD j []) < si + 2 ∧
        dashLine (lines.getD j []) = true) → ∃ a2, y = Yaml.Array a2) := by
  intro lines si y n h
  unfold parse_block at h
  split at h
  · rename_i m a b n0 hp
    have h2 := Option.some.inj h
    have hy : (if b then Yaml.Array a else Yaml.Hash m) = y := (Prod.ext_iff.1 h2).1
    have hn : n0 = n := (Prod.ext_iff.1 h2).2
    subst hn
    obtain ⟨-, -, -, N4, N5⟩ := parseBF_master lines.length lines si [] [] false m a b n0 le_rfl hp
    constructor
    · intro hnod
      have hb : b = false := N4 hnod
      rw [← hy, hb]
      exact ⟨m, by simp⟩
    · intro hex
      have hb : b = true := N5 hex
      rw [← hy, hb]
      exact ⟨a, by simp⟩
  · simp at h

/-- Witness for C6 as amended: a one-line mapping block and a one-line
sequence block. -/
theorem c6_block_kind_witness :
    (∃ m2, Yaml.Hash [("k".data, Yaml.Value "v".data)] = Yaml.Hash m2) ∧
    (∃ a2, Yaml.Array [Yaml.Value "a".data] = Yaml.Array a2) :=
  ⟨(c6_block_kind ["k: v".data] 0 (Yaml.Hash [("k".data, Yaml.Value "v".data)]) 1 rfl).1
      (by decide),
   (c6_block_kind ["- a".data] 0 (Yaml.Array [Yaml.Value "a".data]) 1 rfl).2
      ⟨0, by decide, by decide, by decide⟩⟩

/-- Claim C8: `is_flat_hash` is true exactly on `Hash` nodes all of whose
values are `Value`s; any `Value` or `Array` node gives false, and a `Hash`
with any non-`Value` entry gives false. -/
theorem c8_is_flat_hash :
    (∀ y : Yaml, is_flat_hash y = true ↔
      ∃ m, y = Yaml.Hash m ∧ ∀ e ∈ m, ∃ s, e.2 = Yaml.Value s) ∧
    (∀ s, is_flat_hash (Yaml.Value s) = false) ∧
    (∀ a, is_flat_hash (Yaml.Array a) = false) ∧
    (∀ m, ∀ e ∈ m, (∀ s, e.2 ≠ Yaml.Value s) → is_flat_hash (Yaml.Hash m) = false) := by
  refine ⟨?_, fun _ => rfl, fun _ => rfl, ?_⟩
  · intro y
    cases y with
    | Value s =>
      exact iff_of_false (fun h => by simp [is_flat_hash] at h)
        (fun h => by obtain ⟨m, hm, _⟩ := h; exact Yaml.noConfusion hm)
    | Array a =>
      exact iff_of_false (fun h => by simp [is_flat_hash] at h)
        (fun h => by obtain ⟨m, hm, _⟩ := h; exact Yaml.noConfusion hm)
    | Hash m =>
      simp only [is_flat_hash, List.all_eq_true]
      constructor
      · intro h
        refine ⟨m, rfl, fun e he => ?_⟩
        have := h e he
        cases hv : e.2 with
        | Value s => exact ⟨s, rfl⟩
        | Hash h2 => rw [hv] at this; simp at this
        | Array a2 => rw [hv] at this; simp at this
      · rintro ⟨m2, hm2, h⟩ e he
        cases hm2
        obtain ⟨s, hs⟩ := h e he
        rw [hs]
  · intro m e he hne
    cases h : is_flat_hash (Yaml.Hash m) with
    | false => rfl
    | true =>
      exfalso
      simp only [is_flat_hash, List.all_eq_true] at h
      have := h e he
      cases hv : e.2 with
      | Value s => exact hne s hv
      | Hash h2 => rw [hv] at this; simp at this
      | Array a2 => rw [hv] at this; simp at this

/-! ### Claim C7: inline mappings -/

/-- Claim C7: the inline mapping text braces-a: 1, b: 2-braces parses to a
mapping with exactly the pairs a to "1" and b to "2" (raw text, no coercion);
and in general every value stored by `parse_inline_mapping` is a `Value`
holding raw text. -/
theorem c7_inline_mapping :
    parse_inline_mapping ("\x7ba: 1, b: 2\x7d".data) =
      Yaml.Hash [("a".data, Yaml.Value "1".data), ("b".data, Yaml.Value "2".data)] ∧
    ∀ s : Line, ∃ m, parse_inline_mapping s = Yaml.Hash m ∧
      ∀ e ∈ m, ∃ w, e.2 = Yaml.Value w := by
  constructor
  · rfl
  · intro s
    exact ⟨inlineFold (splitComma (inlineInner s)) [], rfl,
      inline_fold_values _ [] (by intro e he; simp at he)⟩

/-! ### Claims C2, C9, C10: concrete parses -/

/-- Claim C2: the four-line document with a sequence item carrying an inline
`target` field plus two deeper block fields parses to a mapping whose key
m_Modifications holds a one-element sequence, the element being a mapping
with the inline-parsed `target` (three raw scalar fields) merged with
`propertyPath` and `value`; and when the nested block of a sequence item is
not a mapping (here: it is an array), parsing is fatal (`none`). -/
theorem c2_modifications_parse :
    parse_unity_object
      ["m_Modifications:".data,
       "  - target: \x7bfileID: 1, guid: abc, type: 3\x7d".data,
       "    propertyPath: m_Name".data,
       "    value: Canvas".data] =
      some (Yaml.Hash [("m_Modifications".data,
        Yaml.Array [Yaml.Hash
          [("target".data, Yaml.Hash
            [("fileID".data, Yaml.Value "1".data),
             ("guid".data, Yaml.Value "abc".data),
             ("type".data, Yaml.Value "3".data)]),
           ("propertyPath".data, Yaml.Value "m_Name".data),
           ("value".data, Yaml.Value "Canvas".data)]])]) ∧
    parse_unity_object ["- a: 1".data, "  - b".data] = none := by
  exact ⟨rfl, rfl⟩

/-- Claim C9: a duplicated key keeps exactly one entry whose value comes from
the later occurrence, with no error: both for two plain `key: value` lines in
one block and for a key given inline on a sequence item and again in the
merged nested block of the same element. -/
theorem c9_duplicate_keys :
    parse_unity_object ["a: 1".data, "a: 2".data] =
      some (Yaml.Hash [("a".data, Yaml.Value "2".data)]) ∧
    parse_unity_object ["- k: 1".data, "  k: 2".data] =
      some (Yaml.Array [Yaml.Hash [("k".data, Yaml.Value "2".data)]]) := by
  exact ⟨rfl, rfl⟩

/-- Claim C10: a block mixing a dash sequence item with a plain `key: value`
line returns only the sequence built from the dash lines — the mapping entry
is silently dropped, with no error — in either line order. -/
theorem c10_mixed_block :
    parse_unity_object ["- a".data, "k: v".data] =
      some (Yaml.Array [Yaml.Value "a".data]) ∧
    parse_unity_object ["k: v".data, "- a".data] =
      some (Yaml.Array [Yaml.Value "a".data]) := by
  exact ⟨rfl, rfl⟩

/-! ### Character-level lemmas for the round trip -/

theorem dropWhile_replicate_append (n : Nat) (x : Line) :
    (List.replicate n ' ' ++ x).dropWhile isWS = x.dropWhile isWS := by
  induction n with
  | zero => simp
  | succ n2 ih => simp [List.replicate_succ, List.dropWhile_cons, isWS, ih]

theorem trim_replicate_append (n : Nat) (x : Line) :
    trim (List.replicate n ' ' ++ x) = trim x := by
  simp only [trim, dropWhile_replicate_append]

theorem trim_space_cons (x : Line) : trim (' ' :: x) = trim x := by
  simpa using trim_replicate_append 1 x

theorem dropWhile_eq_self_of_headOk {x : Line} (h : headOkB x = true) :
    x.dropWhile isWS = x := by
  cases x with
  | nil => rfl
  | cons c cs =>
    have hc : isWS c = false := by simpa [headOkB] using h
    simp [List.dropWhile_cons, hc]

theorem getLast?_append_right (l1 l2 : Line) (h : l2 ≠ []) :
    (l1 ++ l2).getLast? = l2.getLast? := by
  induction l1 with
  | nil => rfl
  | cons c l1' ih =>
    rw [List.cons_append]
    cases hx : l1' ++ l2 with
    | nil =>
      rcases List.append_eq_nil.1 hx with ⟨-, h2⟩
      exact absurd h2 h
    | cons d ds => rw [List.getLast?_cons_cons, ← hx, ih]

theorem dropWhile_reverse_eq_of_lastOk {x : Line} (h : lastOkB x = true) :
    x.reverse.dropWhile isWS = x.reverse := by
  cases hx : x.reverse with
  | nil => rfl
  | cons c cs =>
    have hc : x.getLast? = some c := by
      rw [← List.head?_reverse, hx]
      rfl
    have hw : isWS c = false := by
      unfold lastOkB at h
      rw [hc] at h
      simpa using h
    simp [List.dropWhile_cons, hw]

theorem trim_eq_self {x : Line} (h1 : headOkB x = true) (h2 : lastOkB x = true) :
    trim x = x := by
  unfold trim
  rw [dropWhile_eq_self_of_headOk h1, dropWhile_reverse_eq_of_lastOk h2, List.reverse_reverse]

theorem findColon_append_cons (k : Line) (r : Line) (hk : ':' ∉ k) :
    findColon (k ++ ':' :: r) = some k.length := by
  induction k with
  | nil => simp [findColon]
  | cons c k' ih =>
    have h1 : ¬ (c = ':') := fun he => hk (by rw [he]; exact List.mem_cons_self _ _)
    have h2 : ':' ∉ k' := fun hm => hk (List.mem_cons_of_mem _ hm)
    simp [findColon, h1, ih h2]

theorem findColon_eq_none {s : Line} (h : ':' ∉ s) : findColon s = none := by
  induction s with
  | nil => rfl
  | cons c s' ih =>
    have h1 : ¬ (c = ':') := fun he => h (by rw [he]; exact List.mem_cons_self _ _)
    have h2 : ':' ∉ s' := fun hm => h (List.mem_cons_of_mem _ hm)
    simp [findColon, h1, ih h2]

theorem take_append_cons (k : Line) (c0 : Char) (r : Line) :
    (k ++ c0 :: r).take k.length = k := by
  simp [List.take_left]

theorem drop_append_cons (k : Line) (c0 : Char) (r : Line) :
    (k ++ c0 :: r).drop (k.length + 1) = r := by
  have h1 : k ++ c0 :: r = (k ++ [c0]) ++ r := by simp
  have h2 : (k ++ [c0]).length = k.length + 1 := by simp
  rw [h1, ← h2, List.drop_left]

theorem headOkB_append (k : Line) (hk : headOkB k = true) (c0 : Char)
    (hc0 : isWS c0 = false) (r : Line) : headOkB (k ++ c0 :: r) = true := by
  cases k with
  | nil => simp [headOkB, hc0]
  | cons c k' => simpa [headOkB] using hk

theorem leadingSpaces_eq_zero {x : Line} (h : headOkB x = true) : leadingSpaces x = 0 := by
  cases x with
  | nil => rfl
  | cons c cs =>
    have hw : isWS c = false := by simpa [headOkB] using h
    have hc : ¬ (c = ' ') := by
      intro he
      subst he
      simp [isWS] at hw
    simp [leadingSpaces, List.takeWhile_cons, hc]

theorem leadingSpaces_replicate_append (n : Nat) (x : Line) :
    leadingSpaces (List.replicate n ' ' ++ x) = n + leadingSpaces x := by
  induction n with
  | zero => simp
  | succ n2 ih =>
    simp only [List.replicate_succ, List.cons_append, leadingSpaces, List.takeWhile_cons]
    simp only [leadingSpaces] at ih
    simp [ih]
    omega

theorem leadingSpaces_indent (lvl : Nat) (x : Line) (h : headOkB x = true) :
    leadingSpaces (indentStr lvl ++ x) = 2 * lvl := by
  rw [indentStr, leadingSpaces_replicate_append, leadingSpaces_eq_zero h]
  omega

theorem trim_indent (lvl : Nat) (x : Line) (h1 : headOkB x = true) (h2 : lastOkB x = true) :
    trim (indentStr lvl ++ x) = x := by
  rw [indentStr, trim_replicate_append, trim_eq_self h1 h2]

theorem lastOkB_append_right (l1 l2 : Line) (h : l2 ≠ []) (h2 : lastOkB l2 = true) :
    lastOkB (l1 ++ l2) = true := by
  unfold lastOkB at h2 ⊢
  rw [getLast?_append_right l1 l2 h]
  exact h2

theorem goodScalar_spec {s : Line} (h : goodScalar s = true) :
    s ≠ [] ∧ headOkB s = true ∧ lastOkB s = true ∧ '\n' ∉ s ∧
      (decide (s.head? = some '{') && decide (s.getLast? = some '}')) = false := by
  simp only [goodScalar, Bool.and_eq_true, Bool.not_eq_true', decide_eq_true_eq] at h
  obtain ⟨⟨⟨⟨h1, h2⟩, h3⟩, h4⟩, h5⟩ := h
  exact ⟨by simpa [List.isEmpty_iff] using h1, h2, h3, h4, h5⟩

theorem goodKey_spec {k : Line} (h : goodKey k = true) :
    headOkB k = true ∧ lastOkB k = true ∧ '\n' ∉ k ∧
      ':' ∉ k ∧ decide (k.head? = some '-') = false := by
  simp only [goodKey, Bool.and_eq_true, Bool.not_eq_true', decide_eq_true_eq] at h
  obtain ⟨⟨⟨⟨h1, h2⟩, h3⟩, h4⟩, h5⟩ := h
  exact ⟨h1, h2, h3, h4, h5⟩

theorem yinsert_fresh (k : Line) (v : Yaml) : ∀ m : List Entry, k ∉ m.map Prod.fst →
    yinsert k v m = m ++ [(k, v)] := by
  intro m
  induction m with
  | nil => intro _; rfl
  | cons e rest ih =>
    intro h
    have h1 : ¬ (e.1 = k) := fun he =>
      h (he ▸ List.mem_map_of_mem Prod.fst (List.mem_cons_self e rest))
    have h2 : k ∉ rest.map Prod.fst := fun hm => by
      rw [List.map_cons] at h
      exact h (List.mem_cons_of_mem _ hm)
    simp [yinsert, h1, ih h2]

/-! ### Equations of the serializer -/

theorem fmt_value (v : Line) (lvl : Nat) : fmt_with_indent (Yaml.Value v) lvl = [v] := by
  simp [fmt_with_indent]

theorem fmt_hash_nil (lvl : Nat) : fmt_with_indent (Yaml.Hash []) lvl = [] := by
  simp [fmt_with_indent]

theorem fmt_hash_value (k s : Line) (es' : List Entry) (lvl : Nat) :
    fmt_with_indent (Yaml.Hash ((k, Yaml.Value s) :: es')) lvl =
      (indentStr lvl ++ k ++ ':' :: ' ' :: s) :: fmt_with_indent (Yaml.Hash es') lvl := by
  simp [fmt_with_indent]

theorem fmt_hash_hash (k : Line) (cm : List Entry) (es' : List Entry) (lvl : Nat) :
    fmt_with_indent (Yaml.Hash ((k, Yaml.Hash cm) :: es')) lvl =
      (indentStr lvl ++ k ++ [':']) ::
        (fmt_with_indent (Yaml.Hash cm) (lvl + 1) ++ fmt_with_indent (Yaml.Hash es') lvl) := by
  simp [fmt_with_indent]

theorem fmt_hash_arr (k : Line) (its : List Yaml) (es' : List Entry) (lvl : Nat) :
    fmt_with_indent (Yaml.Hash ((k, Yaml.Array its) :: es')) lvl =
      (indentStr lvl ++ k ++ [':']) ::
        (fmt_with_indent (Yaml.Array its) (lvl + 1) ++ fmt_with_indent (Yaml.Hash es') lvl) := by
  simp [fmt_with_indent]

theorem fmt_arr_nil (lvl : Nat) : fmt_with_indent (Yaml.Array []) lvl = [] := by
  simp [fmt_with_indent]

theorem fmt_arr_value (s : Line) (its' : List Yaml) (lvl : Nat) :
    fmt_with_indent (Yaml.Array (Yaml.Value s :: its')) lvl =
      (indentStr lvl ++ '-' :: ' ' :: s) :: fmt_with_indent (Yaml.Array its') lvl := by
  simp [fmt_with_indent]

/-- The first line of a nonempty mapping's rendering sits at exactly the
block's own depth. -/
theorem fmt_hash_cons_head (k : Line) (v : Yaml) (es' : List Entry) (lvl : Nat)
    (hk : goodKey k = true) :
    ∃ x xs, fmt_with_indent (Yaml.Hash ((k, v) :: es')) lvl = x :: xs ∧
      leadingSpaces x = 2 * lvl := by
  obtain ⟨hho, -, -, -, -⟩ := goodKey_spec hk
  cases v with
  | Value s =>
    refine ⟨_, _, fmt_hash_value k s es' lvl, ?_⟩
    rw [List.append_assoc]
    exact leadingSpaces_indent lvl _ (headOkB_append k hho ':' rfl (' ' :: s))
  | Hash cm =>
    refine ⟨_, _, fmt_hash_hash k cm es' lvl, ?_⟩
    rw [List.append_assoc]
    exact leadingSpaces_indent lvl _ (headOkB_append k hho ':' rfl [])
  | Array its =>
    refine ⟨_, _, fmt_hash_arr k its es' lvl, ?_⟩
    rw [List.append_assoc]
    exact leadingSpaces_indent lvl _ (headOkB_append k hho ':' rfl [])

/-- Parsing the rendering of a good sequence (all elements scalar) at its own
depth consumes exactly its lines, pushes the elements in order onto the array
accumulator, sets the `is_array` flag, and stops at the first following line
(which is shallower) or at the end of input. -/
theorem arrSeg : ∀ its : List Yaml, ∀ f : Nat, ∀ lvl : Nat, ∀ rest : List Line,
    ∀ m : List Entry, ∀ a : List Yaml, ∀ b : Bool,
    (∀ x ∈ its, ∃ s, x = Yaml.Value s ∧ goodElemScalar s = true) →
    (rest = [] ∨ leadingSpaces (rest.headD []) < 2 * lvl) →
    (fmt_with_indent (Yaml.Array its) lvl ++ rest).length ≤ f →
    parseBF f (fmt_with_indent (Yaml.Array its) lvl ++ rest) (2 * lvl) m a b =
      some (some (m, a ++ its, b || !its.isEmpty,
        (fmt_with_indent (Yaml.Array its) lvl).length)) := by
  intro its
  induction its with
  | nil =>
    intro f lvl rest m a b _ hrest hf
    rw [fmt_arr_nil] at hf ⊢
    simp only [List.nil_append, List.append_nil, List.isEmpty_nil, Bool.not_true,
      Bool.or_false, List.length_nil]
    cases rest with
    | nil => exact parseBF_nil f (2 * lvl) m a b
    | cons r rest' =>
      have hr : leadingSpaces r < 2 * lvl := by
        rcases hrest with h | h
        · simp at h
        · simpa using h
      cases f with
      | zero => simp at hf
      | succ f2 =>
        show parseStep (parseBF f2) r rest' (2 * lvl) m a b = _
        simp only [parseStep, if_pos hr]
  | cons x its' ih =>
    intro f lvl rest m a b hits hrest hf
    obtain ⟨s, hx, hgs⟩ := hits x (List.mem_cons_self _ _)
    subst hx
    obtain ⟨hgs0, hsc⟩ : goodScalar s = true ∧ ':' ∉ s := by
      simpa only [goodElemScalar, Bool.and_eq_true, decide_eq_true_eq] using hgs
    obtain ⟨hne, hho, hlo, hnl, hbr⟩ := goodScalar_spec hgs0
    cases s with
    | nil => exact absurd rfl hne
    | cons s0 s' =>
    have hL1 : leadingSpaces (indentStr lvl ++ '-' :: ' ' :: s0 :: s') = 2 * lvl :=
      leadingSpaces_indent lvl _ (by simp [headOkB, isWS])
    have hL2 : trim (indentStr lvl ++ '-' :: ' ' :: s0 :: s') = '-' :: ' ' :: s0 :: s' :=
      trim_indent lvl _ (by simp [headOkB, isWS])
        (lastOkB_append_right ['-', ' '] (s0 :: s') (by simp) hlo)
    have hL3 : trim (' ' :: s0 :: s') = s0 :: s' := by
      rw [trim_space_cons]
      exact trim_eq_self hho hlo
    have hL4 : findColon (s0 :: s') = none := findColon_eq_none hsc
    rw [fmt_arr_value] at hf ⊢
    cases f with
    | zero => simp at hf
    | succ f2 =>
      rw [List.cons_append]
      show parseStep (parseBF f2) (indentStr lvl ++ '-' :: ' ' :: s0 :: s')
        (fmt_with_indent (Yaml.Array its') lvl ++ rest) (2 * lvl) m a b = _
      simp only [parseStep]
      rw [if_neg (by rw [hL1]; omega)]
      simp only [hL2, if_true]
      simp only [hL3, hL4]
      have hf2 : (fmt_with_indent (Yaml.Array its') lvl ++ rest).length ≤ f2 := by
        simp only [List.cons_append, List.length_cons] at hf
        omega
      rw [ih f2 lvl rest m (a ++ [Yaml.Value (s0 :: s')]) true
        (fun y hy => hits y (List.mem_cons_of_mem _ hy)) hrest hf2]
      simp [addConsumed, List.append_assoc]

/-- Evaluation of one loop step on a well-formed `key:`-style line: the line
is neither a break, nor blank, nor a sequence item; the parser splits it at
the key's colon and proceeds by the shape of the remaining value text. -/
theorem parseStep_keyline
    (rec : List Line → Nat → List Entry → List Yaml → Bool → Option (Option BSt))
    (l : Line) (t : List Line) (si : Nat) (m : List Entry) (a : List Yaml) (b : Bool)
    (k r : Line)
    (hind : ¬ leadingSpaces l < si)
    (htr : trim l = k ++ ':' :: r)
    (hkho : headOkB k = true) (hklo : lastOkB k = true) (hkco : ':' ∉ k)
    (hkdash : decide (k.head? = some '-') = false) :
    parseStep rec l t si m a b =
      (match trim r with
       | [] =>
         (match rec t (leadingSpaces l + 2) [] [] false with
          | none => none
          | some none => some none
          | some (some (nm, na, nb, c1)) =>
            addConsumed (c1 + 1)
              (rec (t.drop c1) si
                (yinsert k (if nb then Yaml.Array na else Yaml.Hash nm) m) a b))
       | v0 :: vtail =>
         if (v0 :: vtail).head? = some '{' && (v0 :: vtail).getLast? = some '}' then
           addConsumed 1 (rec t si (yinsert k (parse_inline_mapping (v0 :: vtail)) m) a b)
         else addConsumed 1 (rec t si (yinsert k (Yaml.Value (v0 :: vtail)) m) a b)) := by
  have hkt : trim k = k := trim_eq_self hkho hklo
  cases k with
  | nil =>
    simp only [List.nil_append] at htr
    simp only [parseStep]
    rw [if_neg hind]
    simp only [htr]
    rw [if_neg (show ¬ ((':' : Char) = '-') by decide)]
    have hfc : findColon (':' :: r) = some 0 := by simp [findColon]
    simp only [hfc, List.take_zero, List.drop_succ_cons, List.drop_zero]
    rfl
  | cons k0 k'' =>
    have hk0 : ¬ (k0 = '-') := by
      intro he
      subst he
      simp at hkdash
    have hfc : findColon ((k0 :: k'') ++ ':' :: r) = some (k0 :: k'').length :=
      findColon_append_cons (k0 :: k'') r hkco
    simp only [parseStep]
    rw [if_neg hind]
    simp only [htr, List.cons_append]
    rw [if_neg hk0]
    simp only [← List.cons_append, hfc, take_append_cons, drop_append_cons]
    rw [hkt]

/-- Parsing the rendering of a good mapping at its own depth consumes exactly
its lines, appends its entries in order to the mapping accumulator, leaves the
array accumulator and the `is_array` flag untouched, and stops at the first
following line (which is shallower) or at the end of input. -/
theorem hashSeg : ∀ f : Nat, ∀ es : List Entry, ∀ lvl : Nat, ∀ rest : List Line,
    ∀ m : List Entry, ∀ a : List Yaml, ∀ b : Bool,
    GoodNode (Yaml.Hash es) →
    (∀ k2, k2 ∈ es.map Prod.fst → k2 ∉ m.map Prod.fst) →
    (rest = [] ∨ leadingSpaces (rest.headD []) < 2 * lvl) →
    (fmt_with_indent (Yaml.Hash es) lvl ++ rest).length ≤ f →
    parseBF f (fmt_with_indent (Yaml.Hash es) lvl ++ rest) (2 * lvl) m a b =
      some (some (m ++ es, a, b, (fmt_with_indent (Yaml.Hash es) lvl).length)) := by
  intro f
  induction f with
  | zero =>
    intro es lvl rest m a b hg hfresh hrest hf
    cases es with
    | nil =>
      rw [fmt_hash_nil] at hf ⊢
      simp only [List.nil_append, List.length_nil] at hf ⊢
      cases rest with
      | nil => simpa using parseBF_nil 0 (2 * lvl) m a b
      | cons r rest' => simp at hf
    | cons e es' =>
      obtain ⟨k, v⟩ := e
      exfalso
      cases v with
      | Value s => rw [fmt_hash_value] at hf; simp at hf
      | Hash cm => rw [fmt_hash_hash] at hf; simp at hf
      | Array its => rw [fmt_hash_arr] at hf; simp at hf
  | succ f ih =>
    intro es lvl rest m a b hg hfresh hrest hf
    cases es with
    | nil =>
      rw [fmt_hash_nil] at hf ⊢
      simp only [List.nil_append, List.length_nil] at hf ⊢
      cases rest with
      | nil => simpa using parseBF_nil (f + 1) (2 * lvl) m a b
      | cons r rest' =>
        have hr : leadingSpaces r < 2 * lvl := by
          rcases hrest with h | h
          · simp at h
          · simpa using h
        show parseStep (parseBF f) r rest' (2 * lvl) m a b = _
        simp only [parseStep, if_pos hr]
        simp
    | cons e es' =>
      obtain ⟨k, v⟩ := e
      obtain ⟨hnd, hks, hvs⟩ : (((k, v) :: es').map Prod.fst).Nodup ∧
          (∀ e2 ∈ (k, v) :: es', goodKey e2.1 = true) ∧
          (∀ e2 ∈ (k, v) :: es', GoodNode e2.2) := by
        cases hg with
        | hash _ h1 h2 h3 => exact ⟨h1, h2, h3⟩
      have hgk : goodKey k = true := hks (k, v) (List.mem_cons_self _ _)
      obtain ⟨hkho, hklo, hknl, hkco, hkdash⟩ := goodKey_spec hgk
      have hnd2 : k ∉ es'.map Prod.fst ∧ (es'.map Prod.fst).Nodup := by
        rw [List.map_cons] at hnd
        exact List.nodup_cons.1 hnd
      have hg' : GoodNode (Yaml.Hash es') :=
        GoodNode.hash es' hnd2.2 (fun e2 he => hks e2 (List.mem_cons_of_mem _ he))
          (fun e2 he => hvs e2 (List.mem_cons_of_mem _ he))
      have hfresh0 : k ∉ m.map Prod.fst :=
        hfresh k (by rw [List.map_cons]; exact List.mem_cons_self _ _)
      have hfreshW : ∀ w : Yaml, ∀ k2, k2 ∈ es'.map Prod.fst →
          k2 ∉ (m ++ [(k, w)]).map Prod.fst := by
        intro w k2 h2 hmem
        rw [List.map_append] at hmem
        rcases List.mem_append.1 hmem with hmem | hmem
        · exact hfresh k2 (by rw [List.map_cons]; exact List.mem_cons_of_mem _ h2) hmem
        · have he : k2 = k := by simpa using hmem
          subst he
          exact hnd2.1 h2
      have hrest2 : fmt_with_indent (Yaml.Hash es') lvl ++ rest = [] ∨
          leadingSpaces ((fmt_with_indent (Yaml.Hash es') lvl ++ rest).headD []) <
            2 * (lvl + 1) := by
        cases es' with
        | nil =>
          rw [fmt_hash_nil, List.nil_append]
          rcases hrest with h | h
          · exact Or.inl h
          · exact Or.inr (by omega)
        | cons e2 es'' =>
          obtain ⟨k2, v2⟩ := e2
          obtain ⟨x, xs, hx, hlx⟩ := fmt_hash_cons_head k2 v2 es'' lvl
            (hks (k2, v2) (List.mem_cons_of_mem _ (List.mem_cons_self _ _)))
          rw [hx, List.cons_append]
          refine Or.inr ?_
          simp only [List.headD_cons, hlx]
          omega
      cases v with
      | Value s =>
        have hgnv : GoodNode (Yaml.Value s) :=
          hvs (k, Yaml.Value s) (List.mem_cons_self _ _)
        have hgs : goodScalar s = true := by
          cases hgnv with
          | value _ h2 => exact h2
        obtain ⟨hsne, hsho, hslo, hsnl, hsbr⟩ := goodScalar_spec hgs
        cases s with
        | nil => exact absurd rfl hsne
        | cons u0 u' =>
        have hL1 : leadingSpaces (indentStr lvl ++ k ++ ':' :: ' ' :: u0 :: u') = 2 * lvl := by
          rw [List.append_assoc]
          exact leadingSpaces_indent lvl _ (headOkB_append k hkho ':' rfl (' ' :: u0 :: u'))
        have hL2 : trim (indentStr lvl ++ k ++ ':' :: ' ' :: u0 :: u') =
            k ++ ':' :: ' ' :: u0 :: u' := by
          rw [List.append_assoc]
          exact trim_indent lvl _ (headOkB_append k hkho ':' rfl (' ' :: u0 :: u'))
            (lastOkB_append_right k (':' :: ' ' :: u0 :: u') (by simp)
              (lastOkB_append_right [':', ' '] (u0 :: u') (by simp) hslo))
        have hL3 : trim (' ' :: u0 :: u') = u0 :: u' := by
          rw [trim_space_cons]
          exact trim_eq_self hsho hslo
        rw [fmt_hash_value] at hf ⊢
        rw [List.cons_append]
        show parseStep (parseBF f) (indentStr lvl ++ k ++ ':' :: ' ' :: u0 :: u')
          (fmt_with_indent (Yaml.Hash es') lvl ++ rest) (2 * lvl) m a b = _
        rw [parseStep_keyline (parseBF f) _ _ (2 * lvl) m a b k (' ' :: u0 :: u')
          (by rw [hL1]; omega) hL2 hkho hklo hkco hkdash]
        simp only [hL3]
        rw [if_neg (by simp only [hsbr]; exact Bool.false_ne_true)]
        rw [yinsert_fresh k (Yaml.Value (u0 :: u')) m hfresh0]
        have hfS : (fmt_with_indent (Yaml.Hash es') lvl ++ rest).length ≤ f := by
          simp only [List.cons_append, List.length_cons] at hf
          omega
        rw [ih es' lvl rest (m ++ [(k, Yaml.Value (u0 :: u'))]) a b hg'
          (hfreshW (Yaml.Value (u0 :: u'))) hrest hfS]
        simp [addConsumed, List.append_assoc]
      | Hash cm =>
        have hgncm : GoodNode (Yaml.Hash cm) :=
          hvs (k, Yaml.Hash cm) (List.mem_cons_self _ _)
        have hL1 : leadingSpaces (indentStr lvl ++ k ++ [':']) = 2 * lvl := by
          rw [List.append_assoc]
          exact leadingSpaces_indent lvl _ (headOkB_append k hkho ':' rfl [])
        have hL2 : trim (indentStr lvl ++ k ++ [':']) = k ++ ':' :: [] := by
          rw [List.append_assoc]
          exact trim_indent lvl _ (headOkB_append k hkho ':' rfl [])
            (lastOkB_append_right k [':'] (by simp) rfl)
        rw [fmt_hash_hash] at hf ⊢
        rw [List.cons_append]
        show parseStep (parseBF f) (indentStr lvl ++ k ++ [':'])
          ((fmt_with_indent (Yaml.Hash cm) (lvl + 1) ++
            fmt_with_indent (Yaml.Hash es') lvl) ++ rest) (2 * lvl) m a b = _
        rw [parseStep_keyline (parseBF f) _ _ (2 * lvl) m a b k []
          (by rw [hL1]; omega) hL2 hkho hklo hkco hkdash]
        have htre : trim ([] : Line) = [] := rfl
        simp only [htre]
        rw [hL1]
        have h22 : 2 * lvl + 2 = 2 * (lvl + 1) := by omega
        rw [h22]
        simp only [List.append_assoc]
        have hfC : (fmt_with_indent (Yaml.Hash cm) (lvl + 1) ++
            (fmt_with_indent (Yaml.Hash es') lvl ++ rest)).length ≤ f := by
          simp only [List.cons_append, List.length_cons, List.length_append] at hf ⊢
          omega
        rw [ih cm (lvl + 1) (fmt_with_indent (Yaml.Hash es') lvl ++ rest) [] [] false
          hgncm (by intro k2 h2 hmem; simp at hmem) hrest2 hfC]
        simp only [List.nil_append]
        rw [List.drop_left]
        rw [if_neg Bool.false_ne_true]
        rw [yinsert_fresh k (Yaml.Hash cm) m hfresh0]
        have hfS : (fmt_with_indent (Yaml.Hash es') lvl ++ rest).length ≤ f := by
          simp only [List.cons_append, List.length_cons, List.length_append] at hf ⊢
          omega
        rw [ih es' lvl rest (m ++ [(k, Yaml.Hash cm)]) a b hg'
          (hfreshW (Yaml.Hash cm)) hrest hfS]
        simp [addConsumed, List.append_assoc, List.length_append]
        omega
      | Array its =>
        have hgna : GoodNode (Yaml.Array its) :=
          hvs (k, Yaml.Array its) (List.mem_cons_self _ _)
        obtain ⟨hne2, helems⟩ : its ≠ [] ∧
            (∀ x ∈ its, ∃ s, x = Yaml.Value s ∧ goodElemScalar s = true) := by
          cases hgna with
          | arr _ h1 h2 => exact ⟨h1, h2⟩
        have hL1 : leadingSpaces (indentStr lvl ++ k ++ [':']) = 2 * lvl := by
          rw [List.append_assoc]
          exact leadingSpaces_indent lvl _ (headOkB_append k hkho ':' rfl [])
        have hL2 : trim (indentStr lvl ++ k ++ [':']) = k ++ ':' :: [] := by
          rw [List.append_assoc]
          exact trim_indent lvl _ (headOkB_append k hkho ':' rfl [])
            (lastOkB_append_right k [':'] (by simp) rfl)
        rw [fmt_hash_arr] at hf ⊢
        rw [List.cons_append]
        show parseStep (parseBF f) (indentStr lvl ++ k ++ [':'])
          ((fmt_with_indent (Yaml.Array its) (lvl + 1) ++
            fmt_with_indent (Yaml.Hash es') lvl) ++ rest) (2 * lvl) m a b = _
        rw [parseStep_keyline (parseBF f) _ _ (2 * lvl) m a b k []
          (by rw [hL1]; omega) hL2 hkho hklo hkco hkdash]
        have htre : trim ([] : Line) = [] := rfl
        simp only [htre]
        rw [hL1]
        have h22 : 2 * lvl + 2 = 2 * (lvl + 1) := by omega
        rw [h22]
        simp only [List.append_assoc]
        have hfC : (fmt_with_indent (Yaml.Array its) (lvl + 1) ++
            (fmt_with_indent (Yaml.Hash es') lvl ++ rest)).length ≤ f := by
          simp only [List.cons_append, List.length_cons, List.length_append] at hf ⊢
          omega
        rw [arrSeg its f (lvl + 1) (fmt_with_indent (Yaml.Hash es') lvl ++ rest) [] []
          false helems hrest2 hfC]
        cases its with
        | nil => exact absurd rfl hne2
        | cons i0 irest =>
        simp only [List.nil_append, List.isEmpty_cons, Bool.not_false, Bool.or_true]
        rw [List.drop_left]
        rw [if_pos trivial]
        rw [yinsert_fresh k (Yaml.Array (i0 :: irest)) m hfresh0]
        have hfS : (fmt_with_indent (Yaml.Hash es') lvl ++ rest).length ≤ f := by
          simp only [List.cons_append, List.length_cons, List.length_append] at hf ⊢
          omega
        rw [ih es' lvl rest (m ++ [(k, Yaml.Array (i0 :: irest))]) a b hg'
          (hfreshW (Yaml.Array (i0 :: irest))) hrest hfS]
        simp [addConsumed, List.append_assoc, List.length_append]
        omega

/-! ### From the Display text back to its lines -/

theorem splitNl_cons (c : Char) (y : Line) :
    splitNl (c :: y) =
      (if c = '\n' then [] :: splitNl y
       else
         match splitNl y with
         | p :: ps => (c :: p) :: ps
         | [] => [[c]]) := rfl

theorem splitNl_newline_append (l : Line) (x : Line) (h : '\n' ∉ l) :
    splitNl (l ++ '\n' :: x) = l :: splitNl x := by
  induction l with
  | nil =>
    rw [List.nil_append, splitNl_cons, if_pos rfl]
  | cons c l' ih =>
    have hc : ¬ (c = '\n') := fun he => h (he ▸ List.mem_cons_self c l')
    have h' : '\n' ∉ l' := fun hm => h (List.mem_cons_of_mem _ hm)
    rw [List.cons_append, splitNl_cons, if_neg hc, ih h']

theorem unlinesN_cons (l : Line) (L : List Line) :
    unlinesN (l :: L) = l ++ '\n' :: unlinesN L := rfl

theorem splitNl_unlines (L : List Line) (h : ∀ l ∈ L, '\n' ∉ l) :
    splitNl (unlinesN L) = L ++ [[]] := by
  induction L with
  | nil => rfl
  | cons l L' ih =>
    rw [unlinesN_cons, splitNl_newline_append l _ (h l (List.mem_cons_self _ _)),
      ih (fun l2 h2 => h l2 (List.mem_cons_of_mem _ h2)), List.cons_append]

theorem unlines_getLast_nl (L : List Line) (h : L ≠ []) :
    (unlinesN L).getLast? = some '\n' := by
  induction L with
  | nil => exact absurd rfl h
  | cons l L' ih =>
    rw [unlinesN_cons, getLast?_append_right l _ (by simp)]
    cases L' with
    | nil => rfl
    | cons l2 L'' =>
      have hne : unlinesN (l2 :: L'') ≠ [] := by
        rw [unlinesN_cons]
        simp
      rw [show ('\n' :: unlinesN (l2 :: L'')) = ['\n'] ++ unlinesN (l2 :: L'') from rfl,
        getLast?_append_right _ _ hne]
      exact ih (by simp)

theorem stripCR_eq_self {l : Line} (h : lastOkB l = true) : stripCR l = l := by
  unfold stripCR
  rw [if_neg]
  intro hcr
  unfold lastOkB at h
  rw [hcr] at h
  simp [isWS] at h

/-- `str::lines` of the serialized text recovers exactly the written lines,
provided no line contains a newline or ends in a carriage return. -/
theorem rustLines_unlines (L : List Line) (h : ∀ l ∈ L, '\n' ∉ l ∧ lastOkB l = true) :
    rustLines (unlinesN L) = L := by
  cases L with
  | nil => rfl
  | cons l L' =>
    unfold rustLines
    have hcond : ((unlinesN (l :: L')).getLast? = some '\n' || (unlinesN (l :: L')).isEmpty)
        = true := by
      rw [unlines_getLast_nl (l :: L') (by simp)]
      simp
    rw [if_pos hcond]
    rw [splitNl_unlines _ (fun l2 h2 => (h l2 h2).1), List.dropLast_concat]
    have hid : ∀ l2 ∈ l :: L', stripCR l2 = l2 := fun l2 h2 => stripCR_eq_self (h l2 h2).2
    rw [List.map_congr_left hid]
    simp

/-! ### Line hygiene of the serializer on good trees -/

/-- No line of a good sequence's rendering contains a newline or ends in
whitespace. -/
theorem fmt_arr_lines_ok : ∀ its : List Yaml, ∀ lvl : Nat,
    (∀ x ∈ its, ∃ s, x = Yaml.Value s ∧ goodElemScalar s = true) →
    ∀ l ∈ fmt_with_indent (Yaml.Array its) lvl, '\n' ∉ l ∧ lastOkB l = true := by
  intro its
  induction its with
  | nil => intro lvl _ l hl; rw [fmt_arr_nil] at hl; simp at hl
  | cons x irest ih =>
    intro lvl hits l hl
    obtain ⟨s, hx, hgs⟩ := hits x (List.mem_cons_self _ _)
    subst hx
    obtain ⟨hgs0, hsc⟩ : goodScalar s = true ∧ ':' ∉ s := by
      simpa only [goodElemScalar, Bool.and_eq_true, decide_eq_true_eq] using hgs
    obtain ⟨hsne, hsho, hslo, hsnl, hsbr⟩ := goodScalar_spec hgs0
    rw [fmt_arr_value] at hl
    rcases List.mem_cons.1 hl with hl | hl
    · subst hl
      constructor
      · intro hmem
        rcases List.mem_append.1 hmem with h2 | h2
        · simp [indentStr, List.mem_replicate] at h2
        · rcases List.mem_cons.1 h2 with h3 | h3
          · exact absurd h3 (by decide)
          · rcases List.mem_cons.1 h3 with h4 | h4
            · exact absurd h4 (by decide)
            · exact hsnl h4
      · exact lastOkB_append_right _ (('-') :: ' ' :: s) (by simp)
          (lastOkB_append_right ['-', ' '] s hsne hslo)
    · exact ih lvl (fun y hy => hits y (List.mem_cons_of_mem _ hy)) l hl

/-- No line of a good tree's rendering contains a newline or ends in
whitespace. -/
theorem fmt_lines_ok : ∀ N : Nat, ∀ y : Yaml, sizeOf y ≤ N → GoodNode y → ∀ lvl : Nat,
    ∀ l ∈ fmt_with_indent y lvl, '\n' ∉ l ∧ lastOkB l = true := by
  intro N
  induction N with
  | zero =>
    intro y hsz
    exfalso
    cases y <;> simp at hsz
  | succ N ih =>
    intro y hsz hg lvl l hl
    cases y with
    | Value v =>
      rw [fmt_value] at hl
      have hgs : goodScalar v = true := by
        cases hg with
        | value _ h2 => exact h2
      obtain ⟨-, -, hvlo, hvnl, -⟩ := goodScalar_spec hgs
      rcases List.mem_singleton.1 hl with rfl
      exact ⟨hvnl, hvlo⟩
    | Array its =>
      obtain ⟨-, helems⟩ : its ≠ [] ∧
          (∀ x ∈ its, ∃ s, x = Yaml.Value s ∧ goodElemScalar s = true) := by
        cases hg with
        | arr _ h1 h2 => exact ⟨h1, h2⟩
      exact fmt_arr_lines_ok its lvl helems l hl
    | Hash m2 =>
      cases m2 with
      | nil => rw [fmt_hash_nil] at hl; simp at hl
      | cons e es' =>
        obtain ⟨k, v⟩ := e
        obtain ⟨hnd, hks, hvs⟩ : (((k, v) :: es').map Prod.fst).Nodup ∧
            (∀ e2 ∈ (k, v) :: es', goodKey e2.1 = true) ∧
            (∀ e2 ∈ (k, v) :: es', GoodNode e2.2) := by
          cases hg with
          | hash _ h1 h2 h3 => exact ⟨h1, h2, h3⟩
        obtain ⟨hkho, hklo, hknl, hkco, hkdash⟩ :=
          goodKey_spec (hks (k, v) (List.mem_cons_self _ _))
        have hnd2 : (es'.map Prod.fst).Nodup := by
          rw [List.map_cons] at hnd
          exact (List.nodup_cons.1 hnd).2
        have hg' : GoodNode (Yaml.Hash es') :=
          GoodNode.hash es' hnd2 (fun e2 he => hks e2 (List.mem_cons_of_mem _ he))
            (fun e2 he => hvs e2 (List.mem_cons_of_mem _ he))
        have hszS : sizeOf (Yaml.Hash es') ≤ N := by
          simp at hsz ⊢
          omega
        have hnlkey : ∀ r : Line, '\n' ∉ r → '\n' ∉ indentStr lvl ++ k ++ r := by
          intro r hr hmem
          rw [List.append_assoc] at hmem
          rcases List.mem_append.1 hmem with h2 | h2
          · simp [indentStr, List.mem_replicate] at h2
          · rcases List.mem_append.1 h2 with h3 | h3
            · exact hknl h3
            · exact hr h3
        cases v with
        | Value s =>
          have hgs : goodScalar s = true := by
            cases hvs (k, Yaml.Value s) (List.mem_cons_self _ _) with
            | value _ h2 => exact h2
          obtain ⟨hsne, hsho, hslo, hsnl, -⟩ := goodScalar_spec hgs
          rw [fmt_hash_value] at hl
          rcases List.mem_cons.1 hl with hl | hl
          · subst hl
            constructor
            · refine hnlkey (':' :: ' ' :: s) ?_
              intro h2
              rcases List.mem_cons.1 h2 with h3 | h3
              · exact absurd h3 (by decide)
              · rcases List.mem_cons.1 h3 with h4 | h4
                · exact absurd h4 (by decide)
                · exact hsnl h4
            · exact lastOkB_append_right _ (':' :: ' ' :: s) (by simp)
                (lastOkB_append_right [':', ' '] s hsne hslo)
          · exact ih (Yaml.Hash es') hszS hg' lvl l hl
        | Hash cm =>
          have hgcm : GoodNode (Yaml.Hash cm) :=
            hvs (k, Yaml.Hash cm) (List.mem_cons_self _ _)
          have hszC : sizeOf (Yaml.Hash cm) ≤ N := by
            simp at hsz ⊢
            omega
          rw [fmt_hash_hash] at hl
          rcases List.mem_cons.1 hl with hl | hl
          · subst hl
            refine ⟨hnlkey [':'] ?_, ?_⟩
            · intro h2
              rcases List.mem_singleton.1 h2 with h3
              exact absurd h3 (by decide)
            · exact lastOkB_append_right _ [':'] (by simp) rfl
          · rcases List.mem_append.1 hl with hl | hl
            · exact ih (Yaml.Hash cm) hszC hgcm (lvl + 1) l hl
            · exact ih (Yaml.Hash es') hszS hg' lvl l hl
        | Array its =>
          have hgits : GoodNode (Yaml.Array its) :=
            hvs (k, Yaml.Array its) (List.mem_cons_self _ _)
          obtain ⟨-, helems⟩ : its ≠ [] ∧
              (∀ x ∈ its, ∃ s, x = Yaml.Value s ∧ goodElemScalar s = true) := by
            cases hgits with
            | arr _ h1 h2 => exact ⟨h1, h2⟩
          rw [fmt_hash_arr] at hl
          rcases List.mem_cons.1 hl with hl | hl
          · subst hl
            refine ⟨hnlkey [':'] ?_, ?_⟩
            · intro h2
              rcases List.mem_singleton.1 h2 with h3
              exact absurd h3 (by decide)
            · exact lastOkB_append_right _ [':'] (by simp) rfl
          · rcases List.mem_append.1 hl with hl | hl
            · exact fmt_arr_lines_ok its (lvl + 1) helems l hl
            · exact ih (Yaml.Hash es') hszS hg' lvl l hl

theorem displayYaml_container {t : Yaml} (h : isContainer t = true) :
    displayYaml t = unlinesN (fmt_with_indent t 0) := by
  cases t with
  | Value v => simp [isContainer] at h
  | Hash m2 => rfl
  | Array a2 => rfl

/-! ### Claim C1: the round trip -/

/-- Counterexample to claim C1 as stated: the tree with the single key `k`
bound to the empty scalar is built only from Scalar/Mapping nodes with no
inline-brace value and no bare-dash element, yet parsing the lines of its
Display output produces a tree whose value at `k` is an (empty) Mapping, not
the original Scalar — the serialized line reads as a `key:` header of a
nested block, so the variant at position `k` is not preserved. -/
theorem c1_counterexample :
    parse_unity_object (rustLines (displayYaml (Yaml.Hash [("k".data, Yaml.Value [])]))) =
      some (Yaml.Hash [("k".data, Yaml.Hash [])]) ∧
    Yaml.Hash ([] : List Entry) ≠ Yaml.Value [] := by
  constructor
  · have h1 : displayYaml (Yaml.Hash [("k".data, Yaml.Value [])]) = "k: \n".data := by
      show unlinesN (fmt_with_indent (Yaml.Hash [("k".data, Yaml.Value [])]) 0) = _
      rw [fmt_hash_value, fmt_hash_nil]
      rfl
    rw [h1]
    rfl
  · intro h2
    exact Yaml.noConfusion h2

/-- Claim C1 as amended: the round trip holds for every tree of the supported
grammar satisfying the conditions forced by the counterexamples — the root is
a mapping or sequence; every scalar is nonempty, free of newlines and of
surrounding whitespace, and not wrapped in a brace pair; every key also
avoids colons and a leading dash, and keys are duplicate-free per mapping;
every sequence is nonempty and all its elements are scalars without colons.
For such trees, parsing the lines of the Display output returns exactly the
original tree (plain equality, hence the same variant at every position, the
same mapping key sets, the same sequence length and order, and scalar text
verbatim). -/
theorem c1_round_trip (t : Yaml) (h : GoodRoot t) :
    parse_unity_object (rustLines (displayYaml t)) = some t := by
  obtain ⟨hg, hc⟩ := h
  rw [displayYaml_container hc,
    rustLines_unlines _ (fmt_lines_ok (sizeOf t) t le_rfl hg 0)]
  cases t with
  | Value v => simp [isContainer] at hc
  | Hash es =>
    have hseg := hashSeg (fmt_with_indent (Yaml.Hash es) 0).length es 0 [] [] [] false hg
      (by intro k2 h2 hmem; simp at hmem) (Or.inl rfl) (by simp)
    rw [List.append_nil] at hseg
    have h0 : 2 * 0 = 0 := rfl
    rw [h0] at hseg
    simp [parse_unity_object, parse_block, hseg]
  | Array its =>
    obtain ⟨hne, helems⟩ : its ≠ [] ∧
        (∀ x ∈ its, ∃ s, x = Yaml.Value s ∧ goodElemScalar s = true) := by
      cases hg with
      | arr _ h1 h2 => exact ⟨h1, h2⟩
    have hseg := arrSeg its (fmt_with_indent (Yaml.Array its) 0).length 0 [] [] [] false
      helems (Or.inl rfl) (by simp)
    rw [List.append_nil] at hseg
    have h0 : 2 * 0 = 0 := rfl
    rw [h0] at hseg
    cases its with
    | nil => exact absurd rfl hne
    | cons i0 irest =>
      simp only [List.nil_append, List.isEmpty_cons, Bool.not_false, Bool.or_true] at hseg
      simp [parse_unity_object, parse_block, hseg]

/-- Witness for C1 as amended: a three-entry mapping holding a scalar, a
two-element scalar sequence, and a nested one-entry mapping round-trips to
itself. -/
theorem c1_round_trip_witness :
    parse_unity_object (rustLines (displayYaml (Yaml.Hash
      [("m_Name".data, Yaml.Value "Canvas".data),
       ("ids".data, Yaml.Array [Yaml.Value "1".data, Yaml.Value "2".data]),
       ("pos".data, Yaml.Hash [("x".data, Yaml.Value "0.5".data)])]))) =
      some (Yaml.Hash
        [("m_Name".data, Yaml.Value "Canvas".data),
         ("ids".data, Yaml.Array [Yaml.Value "1".data, Yaml.Value "2".data]),
         ("pos".data, Yaml.Hash [("x".data, Yaml.Value "0.5".data)])]) := by
  refine c1_round_trip _ ⟨?_, rfl⟩
  refine GoodNode.hash _ (by decide) (by decide) ?_
  intro e he
  simp only [List.mem_cons, List.not_mem_nil, or_false] at he
  rcases he with he | he | he
  · subst he
    exact GoodNode.value _ (by decide)
  · subst he
    refine GoodNode.arr _ (by simp) ?_
    intro x hx
    simp only [List.mem_cons, List.not_mem_nil, or_false] at hx
    rcases hx with hx | hx
    · subst hx
      exact ⟨_, rfl, by decide⟩
    · subst hx
      exact ⟨_, rfl, by decide⟩
  · subst he
    refine GoodNode.hash _ (by decide) (by decide) ?_
    intro e2 he2
    simp only [List.mem_cons, List.not_mem_nil, or_false] at he2
    subst he2
    exact GoodNode.value _ (by decide)

end RustYaml
